import Mathlib

/-!
Verification of the dynamic-array container in `src/advanced-vector/vector.h`.

The embedding models raw memory at the value level: a buffer owned by a
`RawMemory<T>` is a list of slots, where `none` is uninitialized storage and
`some x` is a live element holding value `x`.  A `Vector<T>` is the owned
buffer together with the live-element count `size_`.  Each standard-library
memory primitive used by the source (`std::destroy_n`, `std::copy_n`,
`std::uninitialized_copy_n`, `std::uninitialized_move_n`,
`std::move_backward`, placement `new`, `std::destroy_at`) becomes an explicit
operation on slot lists, and each member function of `Vector<T>` is translated
statement by statement.  A move transfers the element's value and leaves the
source slot live with its old value (moved-from objects hold an unspecified
value that the source code never reads before destroying or overwriting it, so
keeping the old value is sound at this level of abstraction).
-/

namespace AdvVector

variable {α : Type}

/-- `RawMemory<T>::Allocate(n)`: a fresh block of `n` uninitialized slots
(`nullptr` for `n = 0`, modelled as the empty list). -/
def allocate (α : Type) (n : Nat) : List (Option α) := List.replicate n none

/-- Placement `new (b + i) T(x)`: begin the lifetime of an element with value
`x` in slot `i`. -/
def constructAt (b : List (Option α)) (i : Nat) (x : α) : List (Option α) :=
  b.set i (some x)

/-- `std::destroy_at(b + i)`: end the lifetime of the object in slot `i`. -/
def destroyAt (b : List (Option α)) (i : Nat) : List (Option α) := b.set i none

/-- `std::destroy_n(b + s, n)`: end the lifetimes of the objects in slots
`[s, s + n)`. -/
def destroyN (b : List (Option α)) (s n : Nat) : List (Option α) :=
  b.take s ++ List.replicate n none ++ b.drop (s + n)

/-- `std::copy_n` / `std::uninitialized_copy_n` / `std::uninitialized_move_n`:
transfer the values of `n` slots of `src` starting at `s` into `dst` starting
at `d`. -/
def copyN (src : List (Option α)) (s n : Nat) (dst : List (Option α)) (d : Nat) :
    List (Option α) :=
  dst.take d ++ (src.drop s).take n ++ dst.drop (d + n)

/-- `std::uninitialized_value_construct_n` / `uninitialized_default_construct_n`
on slots `[s, s + n)`, with `x` the element type's default value. -/
def constructRange (b : List (Option α)) (s n : Nat) (x : α) : List (Option α) :=
  b.take s ++ List.replicate n (some x) ++ b.drop (s + n)

/-- `std::move_backward(b + first, b + last, b + last + 1)`: shift slots
`[first, last)` one to the right by move-assignment, back to front; slot
`first` stays live (moved-from). -/
def shiftRightOne (b : List (Option α)) (first last : Nat) : List (Option α) :=
  b.take (first + 1) ++ (b.drop first).take (last - first) ++ b.drop (last + 1)

/-- `std::move(b + first, b + last, b + (first - 1))`: shift slots
`[first, last)` one to the left by move-assignment; slot `last - 1` stays
live (moved-from). -/
def shiftLeftOne (b : List (Option α)) (first last : Nat) : List (Option α) :=
  b.take (first - 1) ++ (b.drop first).take (last - first) ++ b.drop (last - 1)

/-- The two compile-time properties of the element type that
`Vector<T>::MoveOrCopy` branches on. -/
structure TypeTraits where
  nothrowMoveConstructible : Bool
  copyConstructible : Bool
deriving DecidableEq

/-- Which strategy a buffer migration used. -/
inductive MigrateKind
  | byMove
  | byCopy
deriving DecidableEq

/-- `Vector<T>::MoveOrCopy(data + s, n, new_data + d)`: migrate `n` elements
into the new buffer — by move exactly when
`std::is_nothrow_move_constructible_v<T> || !std::is_copy_constructible_v<T>`,
otherwise by copy.  Returns the strategy chosen together with the written
buffer (at the value level both strategies transfer the same values). -/
def moveOrCopy (tr : TypeTraits) (src : List (Option α)) (s n : Nat)
    (dst : List (Option α)) (d : Nat) : MigrateKind × List (Option α) :=
  if tr.nothrowMoveConstructible || !tr.copyConstructible then
    (MigrateKind.byMove, copyN src s n dst d)
  else
    (MigrateKind.byCopy, copyN src s n dst d)

/-- `Vector<T>`: the owned buffer `data_` (whose length is the capacity) and
the live-element count `size_`. -/
structure Vec (α : Type) where
  data : List (Option α)
  size : Nat
deriving DecidableEq

/-- `Capacity()`. -/
def Vec.capacity (v : Vec α) : Nat := v.data.length

/-- The values of the live elements, positions `[0, size)`, in order. -/
def Vec.elems (v : Vec α) : List α := (v.data.take v.size).reduceOption

/-- `Vector()`: empty, no allocation. -/
def Vec.empty (α : Type) : Vec α := ⟨[], 0⟩

/-- `explicit Vector(size_t size)`: buffer of capacity `size`, with `size`
value-constructed elements, `x` being the value-initialized element value. -/
def Vec.sized (x : α) (n : Nat) : Vec α :=
  ⟨constructRange (allocate α n) 0 n x, n⟩

/-- `Vector(const Vector&)`: buffer of capacity `other.size_`, the live prefix
copy-constructed into it. -/
def Vec.copyCtor (other : Vec α) : Vec α :=
  ⟨copyN other.data 0 other.size (allocate α other.size) 0, other.size⟩

/-- `Vector(Vector&&)`: default-construct, then `Swap`.  Returns the new
vector and the moved-from source. -/
def Vec.moveCtor (other : Vec α) : Vec α × Vec α :=
  (⟨other.data, other.size⟩, ⟨[], 0⟩)

/-- `Swap(other)`: exchanges buffer and size. -/
def Vec.swapOp (v other : Vec α) : Vec α × Vec α := (other, v)

/-- `operator=(Vector&&)`: `Swap(rhs)`.  Returns the assigned-to vector and
the right-hand side after the call. -/
def Vec.moveAssign (v rhs : Vec α) : Vec α × Vec α := (rhs, v)

/-- `Reserve(new_capacity)`. -/
def Vec.reserve (v : Vec α) (tr : TypeTraits) (newCapacity : Nat) : Vec α :=
  if newCapacity ≤ v.capacity then v
  else
    -- RawMemory<T> new_data(new_capacity); MoveOrCopy(data_, size_, new_data);
    let nd := (moveOrCopy tr v.data 0 v.size (allocate α newCapacity) 0).2
    -- std::destroy_n(data_, size_); data_.Swap(new_data): adopt the new buffer
    ⟨nd, v.size⟩

/-- `EmplaceBack(args...)`, the element construction made explicit: `ctor` is
`some x` when `T(args...)` succeeds producing `x`, and `none` when it throws.
Returns the vector after the call together with the constructed value if
construction succeeded. -/
def Vec.emplaceBackF (v : Vec α) (tr : TypeTraits) (ctor : Option α) :
    Vec α × Option α :=
  if v.size = v.capacity then
    -- RawMemory<T> new_data(size_ == 0 ? 1 : size_ * 2);
    let nd0 : List (Option α) := allocate α (if v.size = 0 then 1 else v.size * 2)
    -- new (new_data + size_) T(std::forward<Types>(args)...);
    match ctor with
    | none =>
      -- the constructor threw: unwinding releases new_data; data_ and size_
      -- have not been touched yet
      (v, none)
    | some x =>
      let nd1 := constructAt nd0 v.size x
      -- MoveOrCopy(data_.GetAddress(), size_, new_data.GetAddress());
      let nd2 := (moveOrCopy tr v.data 0 v.size nd1 0).2
      -- std::destroy_n(...); data_.Swap(new_data); size_++;
      (⟨nd2, v.size + 1⟩, some x)
  else
    match ctor with
    | none => (v, none)
    | some x => (⟨constructAt v.data v.size x, v.size + 1⟩, some x)

/-- `EmplaceBack` with a non-throwing element constructor. -/
def Vec.emplaceBack (v : Vec α) (tr : TypeTraits) (x : α) : Vec α :=
  (v.emplaceBackF tr (some x)).1

/-- `PushBack(value)`: delegates to `EmplaceBack`. -/
def Vec.pushBack (v : Vec α) (tr : TypeTraits) (x : α) : Vec α :=
  v.emplaceBack tr x

/-- `PopBack()`: `--size_; std::destroy_at(data_ + size_)`. -/
def Vec.popBack (v : Vec α) : Vec α :=
  ⟨destroyAt v.data (v.size - 1), v.size - 1⟩

/-- `Emplace(pos, args...)` with `p = pos - begin()`; returns the vector after
the call and the index of the inserted element. -/
def Vec.emplace (v : Vec α) (tr : TypeTraits) (p : Nat) (x : α) : Vec α × Nat :=
  -- RawMemory<T> new_data((size_ == 0) ? 1 : (size_ * 2)); -- on every call
  let nd0 : List (Option α) := allocate α (if v.size = 0 then 1 else v.size * 2)
  if v.size = v.capacity then
    -- new (new_data + dist) T(std::forward<Args>(args)...);
    let nd1 := constructAt nd0 p x
    -- MoveOrCopy(begin(), dist, new_data.GetAddress());
    let nd2 := (moveOrCopy tr v.data 0 p nd1 0).2
    -- MoveOrCopy(begin() + dist, size_ - dist, new_data.GetAddress() + dist + 1);
    let nd3 := (moveOrCopy tr v.data p (v.size - p) nd2 (p + 1)).2
    -- destroy_n; Swap; ++size_; return begin() + dist
    (⟨nd3, v.size + 1⟩, p)
  else if p = v.size then
    -- pos == end(): new (end()) T(std::forward<Args>(args)...);
    (⟨constructAt v.data v.size x, v.size + 1⟩, p)
  else
    -- new (end()) T(std::forward<T>(*(end() - 1)));
    let d1 := v.data.set v.size (v.data.getD (v.size - 1) none)
    -- std::move_backward(it, end() - 1, end());
    let d2 := shiftRightOne d1 p (v.size - 1)
    -- *it = T(std::forward<Args>(args)...); ++size_; return it
    let d3 := d2.set p (some x)
    (⟨d3, v.size + 1⟩, p)

/-- `Insert(pos, value)`: delegates to `Emplace`. -/
def Vec.insert (v : Vec α) (tr : TypeTraits) (p : Nat) (x : α) : Vec α × Nat :=
  v.emplace tr p x

/-- `Erase(pos)` with `p = pos - begin()`; returns the vector after the call
and the index of the returned iterator. -/
def Vec.erase (v : Vec α) (p : Nat) : Vec α × Nat :=
  if v.size = 0 then
    -- begin() == end(): no-op, return the given position
    (v, p)
  else
    -- std::move(pos + 1, end(), pos); PopBack();
    (Vec.popBack ⟨shiftLeftOne v.data (p + 1) v.size, v.size⟩, p)

/-- `Resize(new_size)`, with `x` the element type's value-initialized value. -/
def Vec.resize (v : Vec α) (tr : TypeTraits) (x : α) (newSize : Nat) : Vec α :=
  if v.size < newSize then
    let v1 := if v.capacity < newSize then v.reserve tr newSize else v
    -- std::uninitialized_default_construct_n(data_ + size_, new_size - size_);
    ⟨constructRange v1.data v1.size (newSize - v1.size) x, newSize⟩
  else
    -- std::destroy_n(data_.GetAddress() + new_size, size_ - new_size);
    ⟨destroyN v.data newSize (v.size - newSize), newSize⟩

/-- `operator=(const Vector&)`. -/
def Vec.copyAssign (v other : Vec α) : Vec α :=
  if v.capacity < other.size then
    -- Vector temp(other); Swap(temp);
    Vec.copyCtor other
  else
    -- std::copy_n(other.data_, std::min(size_, other.Size()), data_);
    let d1 := copyN other.data 0 (min v.size other.size) v.data 0
    let d2 :=
      if other.size < v.size then
        -- destroy_n(data_ + other.Size(), size_ - other.Size());
        destroyN d1 other.size (v.size - other.size)
      else if v.size < other.size then
        -- uninitialized_copy_n(other.data_ + size_, other.Size() - size_, data_ + size_);
        copyN other.data v.size (other.size - v.size) d1 v.size
      else d1
    ⟨d2, other.size⟩

/-- A buffer in canonical form: a live prefix holding the values `xs` followed
by uninitialized slots up to capacity `cap`. -/
def buf (cap : Nat) (xs : List α) : List (Option α) :=
  xs.map some ++ List.replicate (cap - xs.length) none

/-- A vector in canonical form: live values `xs` in a buffer of capacity
`cap`. -/
def mkVec (cap : Nat) (xs : List α) : Vec α := ⟨buf cap xs, xs.length⟩

/-- The container invariant: some capacity `cap` and value list `xs` with
`xs.length ≤ cap` such that slots `[0, size)` are exactly the live elements
`xs` and slots `[size, cap)` are uninitialized. -/
def Vec.WF (v : Vec α) : Prop := ∃ cap xs, xs.length ≤ cap ∧ v = mkVec cap xs

/-! ### Slot-level lemmas -/

theorem getElem?_take' (l : List α) (n i : Nat) :
    (l.take n)[i]? = if i < n then l[i]? else none := by
  split
  · exact List.getElem?_take_of_lt (by assumption)
  · exact List.getElem?_eq_none (by simp; omega)

theorem buf_length (cap : Nat) (xs : List α) (h : xs.length ≤ cap) :
    (buf cap xs).length = cap := by
  simp [buf]; omega

theorem buf_getElem? (cap : Nat) (xs : List α) (h : xs.length ≤ cap) (i : Nat) :
    (buf cap xs)[i]? =
      if i < xs.length then (xs[i]?).map some
      else if i < cap then some none else none := by
  rw [buf, List.getElem?_append]
  simp only [List.length_map, List.getElem?_map, List.getElem?_replicate]
  split_ifs <;> first | rfl | omega

theorem copyN_getElem? (src : List (Option α)) (s n : Nat) (dst : List (Option α))
    (d : Nat) (hd : d + n ≤ dst.length) (hs : s + n ≤ src.length) (i : Nat) :
    (copyN src s n dst d)[i]? =
      if i < d then dst[i]?
      else if i < d + n then src[s + (i - d)]?
      else dst[i]? := by
  have l1 : (dst.take d).length = d := by
    rw [List.length_take]; omega
  have l2 : ((src.drop s).take n).length = n := by
    rw [List.length_take, List.length_drop]; omega
  rw [copyN, List.getElem?_append, List.getElem?_append]
  simp only [List.length_append, l1, l2, getElem?_take', List.getElem?_drop]
  split_ifs <;> first | rfl | omega | (congr 1; omega)

theorem fillRange_getElem? (b : List (Option α)) (s n : Nat) (c : Option α)
    (h : s + n ≤ b.length) (i : Nat) :
    (b.take s ++ List.replicate n c ++ b.drop (s + n))[i]? =
      if i < s then b[i]?
      else if i < s + n then some c
      else b[i]? := by
  have l1 : (b.take s).length = s := by
    rw [List.length_take]; omega
  have l2 : (List.replicate n c).length = n := List.length_replicate n c
  rw [List.getElem?_append, List.getElem?_append]
  simp only [List.length_append, l1, l2, List.getElem?_replicate, getElem?_take',
    List.getElem?_drop]
  split_ifs <;> first | rfl | omega | (congr 1; omega)

theorem shiftRightOne_getElem? (b : List (Option α)) (first last : Nat)
    (h1 : first ≤ last) (h2 : last + 1 ≤ b.length) (i : Nat) :
    (shiftRightOne b first last)[i]? =
      if i < first + 1 then b[i]?
      else if i < last + 1 then b[i - 1]?
      else b[i]? := by
  have l1 : (b.take (first + 1)).length = first + 1 := by
    rw [List.length_take]; omega
  have l2 : ((b.drop first).take (last - first)).length = last - first := by
    rw [List.length_take, List.length_drop]; omega
  rw [shiftRightOne, List.getElem?_append, List.getElem?_append]
  simp only [List.length_append, l1, l2, getElem?_take', List.getElem?_drop]
  split_ifs <;> first | rfl | omega | (congr 1; omega)

theorem shiftLeftOne_getElem? (b : List (Option α)) (first last : Nat)
    (h0 : 1 ≤ first) (h1 : first ≤ last) (h2 : last ≤ b.length) (i : Nat) :
    (shiftLeftOne b first last)[i]? =
      if i < first - 1 then b[i]?
      else if i < last - 1 then b[i + 1]?
      else b[i]? := by
  have l1 : (b.take (first - 1)).length = first - 1 := by
    rw [List.length_take]; omega
  have l2 : ((b.drop first).take (last - first)).length = last - first := by
    rw [List.length_take, List.length_drop]; omega
  rw [shiftLeftOne, List.getElem?_append, List.getElem?_append]
  simp only [List.length_append, l1, l2, getElem?_take', List.getElem?_drop]
  split_ifs <;> first | rfl | omega | (congr 1; omega)

theorem reduceOption_map_some (xs : List α) : (xs.map some).reduceOption = xs := by
  induction xs with
  | nil => rfl
  | cons a l ih => simp [List.reduceOption_cons_of_some, ih]

theorem mkVec_size (cap : Nat) (xs : List α) : (mkVec cap xs).size = xs.length := rfl

theorem mkVec_capacity (cap : Nat) (xs : List α) (h : xs.length ≤ cap) :
    (mkVec cap xs).capacity = cap := buf_length cap xs h

theorem mkVec_elems (cap : Nat) (xs : List α) (h : xs.length ≤ cap) :
    (mkVec cap xs).elems = xs := by
  have ht : (buf cap xs).take xs.length = xs.map some := by
    rw [buf, List.take_append_eq_append_take, List.length_map, Nat.sub_self]
    simp
  rw [Vec.elems, mkVec_size, mkVec, ht, reduceOption_map_some]

/-- Element lookup in a list with one value inserted at position `p`. -/
theorem insert_getElem? (xs : List α) (p : Nat) (x : α) (hp : p ≤ xs.length)
    (j : Nat) :
    (xs.take p ++ x :: xs.drop p)[j]? =
      if j < p then xs[j]? else if j = p then some x else xs[j - 1]? := by
  have l1 : (xs.take p).length = p := by rw [List.length_take]; omega
  rw [List.getElem?_append, l1]
  by_cases h1 : j < p
  · simp [h1, getElem?_take']
  · by_cases h2 : j = p
    · subst h2
      simp [h1, Nat.sub_self]
    · have h3 : j - p = (j - p - 1) + 1 := by omega
      rw [if_neg h1, if_neg h1, if_neg h2, h3, List.getElem?_cons_succ,
        List.getElem?_drop]
      congr 1
      omega

/-- Element lookup in a list with the element at position `p` removed. -/
theorem remove_getElem? (xs : List α) (p : Nat) (hp : p < xs.length) (j : Nat) :
    (xs.take p ++ xs.drop (p + 1))[j]? =
      if j < p then xs[j]? else xs[j + 1]? := by
  have l1 : (xs.take p).length = p := by rw [List.length_take]; omega
  rw [List.getElem?_append, l1]
  by_cases h1 : j < p
  · simp [h1, getElem?_take']
  · rw [if_neg h1, if_neg h1, List.getElem?_drop]
    congr 1
    omega

/-- Element lookup in a list with one value appended. -/
theorem append_one_getElem? (xs : List α) (x : α) (j : Nat) :
    (xs ++ [x])[j]? =
      if j < xs.length then xs[j]? else if j = xs.length then some x else none := by
  have h : xs ++ [x] = xs.take xs.length ++ x :: xs.drop xs.length := by simp
  rw [h, insert_getElem? xs xs.length x (le_refl _) j]
  split_ifs <;> first | rfl | (rw [List.getElem?_eq_none (by omega)])

/-- Migration into a freshly allocated buffer, as done by `Reserve` and the
copy constructor: the live prefix lands at the front of the new block. -/
theorem copyN_buf_allocate (cap n : Nat) (xs : List α) (h : xs.length ≤ cap)
    (hn : xs.length ≤ n) :
    copyN (buf cap xs) 0 xs.length (allocate α n) 0 = buf n xs := by
  apply List.ext_getElem?
  intro i
  have hsrc : 0 + xs.length ≤ (buf cap xs).length := by
    rw [buf_length cap xs h]; omega
  have hdst : 0 + xs.length ≤ (allocate α n).length := by
    simp [allocate]; omega
  rw [copyN_getElem? _ _ _ _ _ hdst hsrc i, buf_getElem? n xs hn i]
  simp only [allocate, List.getElem?_replicate, Nat.zero_add, Nat.sub_zero]
  rw [buf_getElem? cap xs h i]
  split_ifs <;> first | rfl | omega

/-- Placement-new at the one-past-the-end slot of a canonical buffer. -/
theorem buf_construct_end (cap : Nat) (xs : List α) (x : α) (h : xs.length < cap) :
    (buf cap xs).set xs.length (some x) = buf cap (xs ++ [x]) := by
  apply List.ext_getElem?
  intro i
  rw [List.getElem?_set, buf_getElem? cap xs (by omega) i,
    buf_getElem? cap (xs ++ [x]) (by simp; omega) i, buf_length cap xs (by omega)]
  simp only [List.length_append, List.length_cons, List.length_nil,
    append_one_getElem?]
  split_ifs <;> first | rfl | omega | simp_all | (exfalso; omega)

/-- The new-buffer path of `EmplaceBack` at capacity: construct the new element
at index `size` of the fresh block, then migrate the old elements to the
front. -/
theorem pushback_newbuf (cap m : Nat) (xs : List α) (x : α)
    (h : xs.length ≤ cap) (hm : xs.length < m) :
    copyN (buf cap xs) 0 xs.length ((allocate α m).set xs.length (some x)) 0 =
      buf m (xs ++ [x]) := by
  apply List.ext_getElem?
  intro i
  have hsrc : 0 + xs.length ≤ (buf cap xs).length := by
    rw [buf_length cap xs h]; omega
  have hdst : 0 + xs.length ≤ ((allocate α m).set xs.length (some x)).length := by
    simp [allocate]; omega
  rw [copyN_getElem? _ _ _ _ _ hdst hsrc i,
    buf_getElem? m (xs ++ [x]) (by simp; omega) i]
  simp only [Nat.zero_add, Nat.sub_zero, List.getElem?_set, allocate,
    List.getElem?_replicate, List.length_replicate, List.length_append,
    List.length_cons, List.length_nil, append_one_getElem?]
  rw [buf_getElem? cap xs h i]
  split_ifs <;> first | rfl | omega | simp_all | (exfalso; omega)

/-- Both migration strategies transfer the same element values. -/
theorem moveOrCopy_snd (tr : TypeTraits) (src : List (Option α)) (s n : Nat)
    (dst : List (Option α)) (d : Nat) :
    (moveOrCopy tr src s n dst d).2 = copyN src s n dst d := by
  rw [moveOrCopy]
  split <;> rfl

/-- The migration strategy is independent of the buffers. -/
theorem moveOrCopy_fst (tr : TypeTraits) (src : List (Option α)) (s n : Nat)
    (dst : List (Option α)) (d : Nat) :
    (moveOrCopy tr src s n dst d).1 =
      if tr.nothrowMoveConstructible || !tr.copyConstructible then
        MigrateKind.byMove
      else MigrateKind.byCopy := by
  rw [moveOrCopy]
  split <;> simp_all

/-! ### Canonical-form behaviour of every `Vector<T>` operation -/

theorem reserve_mkVec (tr : TypeTraits) (cap n : Nat) (xs : List α)
    (h : xs.length ≤ cap) :
    (mkVec cap xs).reserve tr n =
      if n ≤ cap then mkVec cap xs else mkVec n xs := by
  rw [Vec.reserve, mkVec_capacity cap xs h]
  by_cases hn : n ≤ cap
  · rw [if_pos hn, if_pos hn]
  · rw [if_neg hn, if_neg hn, moveOrCopy_snd, mkVec_size,
      show (mkVec cap xs).data = buf cap xs from rfl,
      copyN_buf_allocate cap n xs h (by omega)]
    rfl

theorem copyCtor_mkVec (cap : Nat) (xs : List α) (h : xs.length ≤ cap) :
    Vec.copyCtor (mkVec cap xs) = mkVec xs.length xs := by
  rw [Vec.copyCtor, mkVec_size,
    show (mkVec cap xs).data = buf cap xs from rfl,
    copyN_buf_allocate cap xs.length xs h (le_refl _)]
  rfl

/-- The capacity requested by the growth paths equals `max 1 (2 * old_capacity)`
when the vector is at capacity. -/
theorem grow_request (cap : Nat) (xs : List α) (heq : xs.length = cap) :
    (if xs.length = 0 then 1 else xs.length * 2) = max 1 (2 * cap) := by
  split <;> omega

theorem emplaceBackF_some_mkVec (tr : TypeTraits) (cap : Nat) (xs : List α)
    (x : α) (h : xs.length ≤ cap) :
    (mkVec cap xs).emplaceBackF tr (some x) =
      (mkVec (if xs.length = cap then max 1 (2 * cap) else cap) (xs ++ [x]),
        some x) := by
  by_cases heq : xs.length = cap
  · simp only [Vec.emplaceBackF, mkVec_capacity cap xs h, mkVec_size, if_pos heq,
      moveOrCopy_snd, constructAt]
    rw [show (mkVec cap xs).data = buf cap xs from rfl, grow_request cap xs heq,
      pushback_newbuf cap (max 1 (2 * cap)) xs x h (by omega)]
    rw [mkVec]
    simp
  · simp only [Vec.emplaceBackF, mkVec_capacity cap xs h, mkVec_size,
      if_neg heq, constructAt]
    rw [show (mkVec cap xs).data = buf cap xs from rfl,
      buf_construct_end cap xs x (by omega)]
    rw [mkVec]
    simp

theorem emplaceBack_mkVec (tr : TypeTraits) (cap : Nat) (xs : List α) (x : α)
    (h : xs.length ≤ cap) :
    (mkVec cap xs).emplaceBack tr x =
      mkVec (if xs.length = cap then max 1 (2 * cap) else cap) (xs ++ [x]) := by
  rw [Vec.emplaceBack, emplaceBackF_some_mkVec tr cap xs x h]

/-- A failed element construction inside `EmplaceBack` leaves the vector
untouched, whichever branch was taken. -/
theorem emplaceBackF_none (v : Vec α) (tr : TypeTraits) :
    v.emplaceBackF tr none = (v, none) := by
  rw [Vec.emplaceBackF]
  split <;> rfl

/-- The new-buffer path of `Emplace` at capacity: construct the new element at
index `p` of the fresh block, migrate the prefix `[0, p)` in place and the
suffix `[p, size)` shifted one slot right. -/
theorem emplace_newbuf (cap m p : Nat) (xs : List α) (x : α)
    (hcap : xs.length ≤ cap) (hp : p ≤ xs.length) (hm : xs.length < m) :
    copyN (buf cap xs) p (xs.length - p)
        (copyN (buf cap xs) 0 p ((allocate α m).set p (some x)) 0) (p + 1) =
      buf m (xs.take p ++ x :: xs.drop p) := by
  have hd0 : ((allocate α m).set p (some x)).length = m := by simp [allocate]
  have hc1len : (copyN (buf cap xs) 0 p ((allocate α m).set p (some x)) 0).length
      = m := by
    rw [copyN]
    simp only [List.length_append, List.length_take, List.length_drop, hd0]
    rw [buf_length cap xs hcap]
    omega
  have hc1 : ∀ j, (copyN (buf cap xs) 0 p ((allocate α m).set p (some x)) 0)[j]? =
      if j < p then (xs[j]?).map some
      else if j = p then some (some x)
      else if j < m then some none else none := by
    intro j
    rw [copyN_getElem? _ _ _ _ _ (by omega)
      (by rw [buf_length cap xs hcap]; omega) j]
    simp only [Nat.zero_add, Nat.sub_zero]
    rw [if_neg (show ¬j < 0 by omega), List.getElem?_set]
    simp only [allocate, List.length_replicate, List.getElem?_replicate]
    by_cases hj : j < p
    · rw [if_pos hj, if_pos hj, buf_getElem? cap xs hcap j, if_pos (by omega)]
    · rw [if_neg hj, if_neg hj]
      by_cases hjp : j = p
      · rw [if_pos (hjp.symm), if_pos hjp, if_pos (by omega)]
      · rw [if_neg (fun hh => hjp hh.symm), if_neg hjp]
  have hys : (xs.take p ++ x :: xs.drop p).length = xs.length + 1 := by
    simp
    omega
  have key : ∀ c1 : List (Option α), c1.length = m →
      (∀ j, c1[j]? =
        if j < p then (xs[j]?).map some
        else if j = p then some (some x)
        else if j < m then some none else none) →
      copyN (buf cap xs) p (xs.length - p) c1 (p + 1) =
        buf m (xs.take p ++ x :: xs.drop p) := by
    intro c1 hl hc
    apply List.ext_getElem?
    intro i
    rw [copyN_getElem? _ _ _ _ _ (by rw [hl]; omega)
      (by rw [buf_length cap xs hcap]; omega) i,
      buf_getElem? m (xs.take p ++ x :: xs.drop p) (by omega) i,
      insert_getElem? xs p x hp i]
    simp only [hc, hys]
    by_cases hmid : p + 1 ≤ i ∧ i < p + 1 + (xs.length - p)
    · rw [if_neg (by omega), if_pos (by omega),
        buf_getElem? cap xs hcap (p + (i - (p + 1))), if_pos (by omega),
        if_pos (by omega), if_neg (by omega), if_neg (by omega)]
      congr 2
      omega
    · split_ifs <;> first | rfl | omega | (congr 2; omega) | (congr 1; omega)
  exact key _ hc1len hc1

/-- The in-place path of `Emplace` below capacity at an interior position:
move-construct the last element into the one-past-the-end slot, shift
`[p, size - 1)` one right by move-assignment, assign the new value at `p`. -/
theorem emplace_shift (cap p : Nat) (xs : List α) (x : α)
    (hp : p < xs.length) (hlen : xs.length < cap) :
    ((shiftRightOne ((buf cap xs).set xs.length
          ((buf cap xs).getD (xs.length - 1) none)) p (xs.length - 1)).set p
        (some x)) =
      buf cap (xs.take p ++ x :: xs.drop p) := by
  have hlb : (buf cap xs).length = cap := buf_length cap xs (by omega)
  obtain ⟨v, hv⟩ : ∃ v, xs[xs.length - 1]? = some v :=
    ⟨_, List.getElem?_eq_getElem (by omega)⟩
  have hgetD : (buf cap xs).getD (xs.length - 1) none = some v := by
    rw [List.getD_eq_getElem?_getD, buf_getElem? cap xs (by omega) (xs.length - 1),
      if_pos (by omega), hv]
    rfl
  have hsl : ((buf cap xs).set xs.length
      ((buf cap xs).getD (xs.length - 1) none)).length = cap := by
    rw [List.length_set, hlb]
  have hd1 : ∀ j, ((buf cap xs).set xs.length
      ((buf cap xs).getD (xs.length - 1) none))[j]? =
      if j = xs.length then some (some v) else (buf cap xs)[j]? := by
    intro j
    rw [hgetD, List.getElem?_set, hlb]
    split_ifs <;> first | rfl | omega
  have hys : (xs.take p ++ x :: xs.drop p).length = xs.length + 1 := by
    simp
    omega
  have key : ∀ d1 : List (Option α), d1.length = cap →
      (∀ j, d1[j]? =
        if j = xs.length then some (some v) else (buf cap xs)[j]?) →
      (shiftRightOne d1 p (xs.length - 1)).set p (some x) =
        buf cap (xs.take p ++ x :: xs.drop p) := by
    intro d1 hl hd
    apply List.ext_getElem?
    intro i
    have hshl : (shiftRightOne d1 p (xs.length - 1)).length = cap := by
      rw [shiftRightOne]
      simp only [List.length_append, List.length_take, List.length_drop, hl]
      omega
    rw [List.getElem?_set, hshl,
      shiftRightOne_getElem? d1 p (xs.length - 1) (by omega) (by rw [hl]; omega) i,
      buf_getElem? cap (xs.take p ++ x :: xs.drop p) (by omega) i,
      insert_getElem? xs p x (by omega) i]
    simp only [hd, hys]
    rw [buf_getElem? cap xs (by omega) i, buf_getElem? cap xs (by omega) (i - 1)]
    by_cases hback : i = xs.length
    · subst hback
      simp only [hv]
      split_ifs <;> first | rfl | omega
    · split_ifs <;> first | rfl | omega | (congr 2; omega) | (congr 1; omega)
  exact key _ hsl hd1

/-- Lookup in a list extended by `k` copies of `x`. -/
theorem append_replicate_getElem? (xs : List α) (k : Nat) (x : α) (j : Nat) :
    (xs ++ List.replicate k x)[j]? =
      if j < xs.length then xs[j]?
      else if j < xs.length + k then some x else none := by
  rw [List.getElem?_append, List.getElem?_replicate]
  split_ifs <;> first | rfl | omega

/-- `Erase` at an interior position: shift `[p + 1, size)` one slot left, then
destroy the trailing slot. -/
theorem erase_shift (cap p : Nat) (xs : List α) (hp : p < xs.length)
    (h : xs.length ≤ cap) :
    (shiftLeftOne (buf cap xs) (p + 1) xs.length).set (xs.length - 1) none =
      buf cap (xs.take p ++ xs.drop (p + 1)) := by
  have hlb : (buf cap xs).length = cap := buf_length cap xs h
  have hsl : (shiftLeftOne (buf cap xs) (p + 1) xs.length).length = cap := by
    rw [shiftLeftOne]
    simp only [List.length_append, List.length_take, List.length_drop, hlb]
    omega
  have hys : (xs.take p ++ xs.drop (p + 1)).length = xs.length - 1 := by
    simp
    omega
  apply List.ext_getElem?
  intro i
  rw [List.getElem?_set, hsl,
    shiftLeftOne_getElem? (buf cap xs) (p + 1) xs.length (by omega) (by omega)
      (by rw [hlb]; omega) i,
    buf_getElem? cap (xs.take p ++ xs.drop (p + 1)) (by omega) i,
    remove_getElem? xs p hp i]
  simp only [hys]
  rw [buf_getElem? cap xs h i, buf_getElem? cap xs h (i + 1)]
  split_ifs <;> first | rfl | omega | (congr 2; omega) | (congr 1; omega)

/-- `PopBack`: destroying the last live slot drops the last element. -/
theorem popBack_buf (cap : Nat) (xs : List α) (hx : xs ≠ [])
    (h : xs.length ≤ cap) :
    (buf cap xs).set (xs.length - 1) none = buf cap xs.dropLast := by
  have hlb : (buf cap xs).length = cap := buf_length cap xs h
  have hd : xs.dropLast.length = xs.length - 1 := by
    rw [List.length_dropLast]
  have hne : 0 < xs.length := List.length_pos.mpr hx
  apply List.ext_getElem?
  intro i
  rw [List.getElem?_set, hlb, buf_getElem? cap xs h i,
    buf_getElem? cap xs.dropLast (by omega) i, List.getElem?_dropLast]
  simp only [hd]
  split_ifs <;> first | rfl | omega | (congr 1; omega)

/-- Value-construction of the slots `[size, n)`, as done by `Resize` growing
and the sized constructor. -/
theorem construct_tail (cap n : Nat) (xs : List α) (x : α)
    (h1 : xs.length ≤ n) (h2 : n ≤ cap) :
    constructRange (buf cap xs) xs.length (n - xs.length) x =
      buf cap (xs ++ List.replicate (n - xs.length) x) := by
  have hlb : (buf cap xs).length = cap := buf_length cap xs (by omega)
  apply List.ext_getElem?
  intro i
  rw [constructRange, fillRange_getElem? (buf cap xs) xs.length (n - xs.length)
      (some x) (by rw [hlb]; omega) i,
    buf_getElem? cap (xs ++ List.replicate (n - xs.length) x) (by simp; omega) i,
    append_replicate_getElem? xs (n - xs.length) x i]
  rw [buf_getElem? cap xs (by omega) i]
  simp only [List.length_append, List.length_replicate]
  split_ifs <;> first | rfl | omega

/-- Destruction of the slots `[n, size)`, as done by `Resize` shrinking. -/
theorem destroy_tail (cap n : Nat) (xs : List α) (hn : n ≤ xs.length)
    (h : xs.length ≤ cap) :
    destroyN (buf cap xs) n (xs.length - n) = buf cap (xs.take n) := by
  have hlb : (buf cap xs).length = cap := buf_length cap xs h
  apply List.ext_getElem?
  intro i
  rw [destroyN, fillRange_getElem? (buf cap xs) n (xs.length - n) none
      (by rw [hlb]; omega) i,
    buf_getElem? cap (xs.take n) (by rw [List.length_take]; omega) i,
    getElem?_take', buf_getElem? cap xs h i]
  simp only [List.length_take]
  split_ifs <;> first | rfl | omega

/-- Element-wise overwrite of the live prefix, as done by copy assignment
without reallocation. -/
theorem copyN_overwrite (cap cap2 k : Nat) (xs ys : List α)
    (hx : xs.length ≤ cap) (hy : ys.length ≤ cap2) (hk : k ≤ xs.length)
    (hk2 : k ≤ ys.length) :
    copyN (buf cap2 ys) 0 k (buf cap xs) 0 =
      buf cap (ys.take k ++ xs.drop k) := by
  have hlb : (buf cap xs).length = cap := buf_length cap xs hx
  have hlb2 : (buf cap2 ys).length = cap2 := buf_length cap2 ys hy
  have hzs : (ys.take k ++ xs.drop k).length = xs.length := by
    simp
    omega
  apply List.ext_getElem?
  intro i
  rw [copyN_getElem? _ _ _ _ _ (by rw [hlb]; omega) (by rw [hlb2]; omega) i,
    buf_getElem? cap (ys.take k ++ xs.drop k) (by omega) i, List.getElem?_append]
  simp only [Nat.zero_add, Nat.sub_zero, hzs, List.length_take, getElem?_take',
    List.getElem?_drop]
  rw [buf_getElem? cap xs hx i, buf_getElem? cap2 ys hy i]
  split_ifs <;> first | rfl | omega | (congr 2; omega) | (congr 1; omega)

/-- Copy-construction of the source's extra elements `[s, ys.length)` behind
the overwritten prefix, as done by copy assignment from a longer source. -/
theorem copyN_extend (cap cap2 s : Nat) (ys : List α) (hs : s ≤ ys.length)
    (hy : ys.length ≤ cap) (hy2 : ys.length ≤ cap2) :
    copyN (buf cap2 ys) s (ys.length - s) (buf cap (ys.take s)) s =
      buf cap ys := by
  have hlb : (buf cap (ys.take s)).length = cap := by
    rw [buf_length]
    rw [List.length_take]
    omega
  have hlb2 : (buf cap2 ys).length = cap2 := buf_length cap2 ys hy2
  apply List.ext_getElem?
  intro i
  rw [copyN_getElem? _ _ _ _ _ (by rw [hlb]; omega) (by rw [hlb2]; omega) i,
    buf_getElem? cap ys hy i,
    buf_getElem? cap (ys.take s) (by rw [List.length_take]; omega) i,
    buf_getElem? cap2 ys hy2 (s + (i - s))]
  simp only [List.length_take, getElem?_take']
  split_ifs <;> first | rfl | omega | (congr 2; omega) | (congr 1; omega)

theorem emplace_mkVec (tr : TypeTraits) (cap p : Nat) (xs : List α) (x : α)
    (h : xs.length ≤ cap) (hp : p ≤ xs.length) :
    (mkVec cap xs).emplace tr p x =
      (mkVec (if xs.length = cap then max 1 (2 * cap) else cap)
        (xs.take p ++ x :: xs.drop p), p) := by
  have hys : (xs.take p ++ x :: xs.drop p).length = xs.length + 1 := by
    simp
    omega
  by_cases heq : xs.length = cap
  · simp only [Vec.emplace, mkVec_capacity cap xs h, mkVec_size, if_pos heq,
      moveOrCopy_snd, constructAt]
    rw [show (mkVec cap xs).data = buf cap xs from rfl, grow_request cap xs heq,
      emplace_newbuf cap (max 1 (2 * cap)) p xs x h hp (by omega)]
    rw [mkVec, hys]
  · by_cases hpe : p = xs.length
    · simp only [Vec.emplace, mkVec_capacity cap xs h, mkVec_size, if_neg heq,
        if_pos hpe, constructAt]
      rw [show (mkVec cap xs).data = buf cap xs from rfl,
        buf_construct_end cap xs x (by omega)]
      subst hpe
      rw [show xs.take xs.length ++ x :: xs.drop xs.length = xs ++ [x] from
        by simp, mkVec]
      simp
    · simp only [Vec.emplace, mkVec_capacity cap xs h, mkVec_size, if_neg heq,
        if_neg hpe]
      rw [show (mkVec cap xs).data = buf cap xs from rfl,
        emplace_shift cap p xs x (by omega) (by omega)]
      rw [mkVec, hys]

theorem erase_mkVec (cap p : Nat) (xs : List α) (hp : p < xs.length)
    (h : xs.length ≤ cap) :
    (mkVec cap xs).erase p = (mkVec cap (xs.take p ++ xs.drop (p + 1)), p) := by
  have hys : (xs.take p ++ xs.drop (p + 1)).length = xs.length - 1 := by
    simp
    omega
  have hne : ¬(mkVec cap xs).size = 0 := by rw [mkVec_size]; omega
  rw [Vec.erase, if_neg hne]
  simp only [Vec.popBack, destroyAt, mkVec_size]
  rw [show (mkVec cap xs).data = buf cap xs from rfl,
    erase_shift cap p xs hp h, mkVec, hys]

theorem erase_size_zero (v : Vec α) (p : Nat) (h : v.size = 0) :
    v.erase p = (v, p) := by
  rw [Vec.erase, if_pos h]

theorem popBack_mkVec (cap : Nat) (xs : List α) (hx : xs ≠ [])
    (h : xs.length ≤ cap) :
    (mkVec cap xs).popBack = mkVec cap xs.dropLast := by
  simp only [Vec.popBack, destroyAt, mkVec_size]
  rw [show (mkVec cap xs).data = buf cap xs from rfl,
    popBack_buf cap xs hx h, mkVec, List.length_dropLast]

theorem sized_mkVec (x : α) (n : Nat) :
    Vec.sized x n = mkVec n (List.replicate n x) := by
  have hd : constructRange (allocate α n) 0 n x = buf n (List.replicate n x) := by
    apply List.ext_getElem?
    intro i
    rw [constructRange, fillRange_getElem? (allocate α n) 0 n (some x)
        (by simp [allocate]) i,
      buf_getElem? n (List.replicate n x) (by simp) i]
    simp only [allocate, List.getElem?_replicate, List.length_replicate,
      Nat.zero_add]
    split_ifs <;> first | rfl | omega
  rw [Vec.sized, hd, mkVec]
  simp

theorem resize_mkVec (tr : TypeTraits) (cap n : Nat) (xs : List α) (x : α)
    (h : xs.length ≤ cap) :
    (mkVec cap xs).resize tr x n =
      if n ≤ xs.length then mkVec cap (xs.take n)
      else mkVec (max cap n) (xs ++ List.replicate (n - xs.length) x) := by
  by_cases hn : xs.length < n
  · rw [if_neg (by omega)]
    simp only [Vec.resize, mkVec_capacity cap xs h, mkVec_size, if_pos hn]
    by_cases hcapn : cap < n
    · rw [if_pos hcapn, reserve_mkVec tr cap n xs h, if_neg (by omega)]
      simp only [mkVec_size]
      have hlz : (xs ++ List.replicate (n - xs.length) x).length = n := by
        simp
        omega
      rw [show (mkVec n xs).data = buf n xs from rfl,
        construct_tail n n xs x (by omega) (le_refl n),
        show max cap n = n from by omega, mkVec, hlz]
    · rw [if_neg hcapn]
      simp only [mkVec_size]
      have hlz : (xs ++ List.replicate (n - xs.length) x).length = n := by
        simp
        omega
      rw [show (mkVec cap xs).data = buf cap xs from rfl,
        construct_tail cap n xs x (by omega) (by omega),
        show max cap n = cap from by omega, mkVec, hlz]
  · rw [if_pos (by omega)]
    simp only [Vec.resize, mkVec_size, if_neg hn]
    rw [show (mkVec cap xs).data = buf cap xs from rfl,
      destroy_tail cap n xs (by omega) h, mkVec, List.length_take,
      show min n xs.length = n from by omega]

theorem copyAssign_mkVec (cap cap2 : Nat) (xs ys : List α)
    (hx : xs.length ≤ cap) (hy : ys.length ≤ cap2) :
    (mkVec cap xs).copyAssign (mkVec cap2 ys) =
      if cap < ys.length then mkVec ys.length ys else mkVec cap ys := by
  by_cases hc : cap < ys.length
  · simp only [Vec.copyAssign, mkVec_capacity cap xs hx, mkVec_size, if_pos hc,
      copyCtor_mkVec cap2 ys hy]
  · rw [if_neg hc]
    simp only [Vec.copyAssign, mkVec_capacity cap xs hx, mkVec_size, if_neg hc]
    rcases Nat.lt_trichotomy ys.length xs.length with hlt | heq | hgt
    · rw [if_pos hlt]
      have hmin : min xs.length ys.length = ys.length := by omega
      rw [hmin, show (mkVec cap xs).data = buf cap xs from rfl,
        show (mkVec cap2 ys).data = buf cap2 ys from rfl,
        copyN_overwrite cap cap2 ys.length xs ys hx hy (by omega) (by omega),
        show ys.take ys.length = ys from by simp]
      have hlz : (ys ++ xs.drop ys.length).length = xs.length := by
        simp
        omega
      rw [show xs.length - ys.length =
          (ys ++ xs.drop ys.length).length - ys.length from by rw [hlz],
        destroy_tail cap ys.length (ys ++ xs.drop ys.length) (by rw [hlz]; omega)
          (by rw [hlz]; omega),
        List.take_append_eq_append_take, Nat.sub_self, List.take_zero,
        List.append_nil, List.take_of_length_le (by omega), mkVec]
    · rw [if_neg (by omega), if_neg (by omega)]
      have hmin : min xs.length ys.length = ys.length := by omega
      rw [hmin, show (mkVec cap xs).data = buf cap xs from rfl,
        show (mkVec cap2 ys).data = buf cap2 ys from rfl,
        copyN_overwrite cap cap2 ys.length xs ys hx hy (by omega) (by omega),
        show ys.take ys.length = ys from by simp, heq, List.drop_length,
        List.append_nil, mkVec, ← heq]
    · rw [if_neg (by omega), if_pos hgt]
      have hmin : min xs.length ys.length = xs.length := by omega
      rw [hmin, show (mkVec cap xs).data = buf cap xs from rfl,
        show (mkVec cap2 ys).data = buf cap2 ys from rfl,
        copyN_overwrite cap cap2 xs.length xs ys hx hy (by omega) (by omega),
        List.drop_length, List.append_nil,
        copyN_extend cap cap2 xs.length ys (by omega) (by omega) (by omega),
        mkVec]

theorem empty_mkVec : Vec.empty α = mkVec 0 ([] : List α) := rfl

/-! ### The container invariant is preserved -/

theorem WF_mkVec (cap : Nat) (xs : List α) (h : xs.length ≤ cap) :
    (mkVec cap xs).WF := ⟨cap, xs, h, rfl⟩

theorem WF_elim (v : Vec α) (h : v.WF) :
    ∃ cap xs, xs.length ≤ cap ∧ v = mkVec cap xs := h

theorem WF_empty : (Vec.empty α).WF := ⟨0, [], by simp, rfl⟩

theorem WF_sized (x : α) (n : Nat) : (Vec.sized x n).WF := by
  rw [sized_mkVec]
  exact WF_mkVec n (List.replicate n x) (by simp)

theorem WF_copyCtor (v : Vec α) (h : v.WF) : (Vec.copyCtor v).WF := by
  obtain ⟨cap, xs, hl, rfl⟩ := h
  rw [copyCtor_mkVec cap xs hl]
  exact WF_mkVec xs.length xs (le_refl _)

theorem WF_reserve (tr : TypeTraits) (v : Vec α) (n : Nat) (h : v.WF) :
    (v.reserve tr n).WF := by
  obtain ⟨cap, xs, hl, rfl⟩ := h
  rw [reserve_mkVec tr cap n xs hl]
  split_ifs with hn
  · exact WF_mkVec cap xs hl
  · exact WF_mkVec n xs (by omega)

theorem WF_emplaceBack (tr : TypeTraits) (v : Vec α) (x : α) (h : v.WF) :
    (v.emplaceBack tr x).WF := by
  obtain ⟨cap, xs, hl, rfl⟩ := h
  rw [emplaceBack_mkVec tr cap xs x hl]
  apply WF_mkVec
  simp only [List.length_append, List.length_cons, List.length_nil]
  split_ifs <;> omega

theorem WF_emplaceBackF (tr : TypeTraits) (v : Vec α) (ctor : Option α)
    (h : v.WF) : (v.emplaceBackF tr ctor).1.WF := by
  cases ctor with
  | none => rw [emplaceBackF_none]; exact h
  | some x =>
    obtain ⟨cap, xs, hl, rfl⟩ := h
    rw [emplaceBackF_some_mkVec tr cap xs x hl]
    apply WF_mkVec
    simp only [List.length_append, List.length_cons, List.length_nil]
    split_ifs <;> omega

theorem WF_pushBack (tr : TypeTraits) (v : Vec α) (x : α) (h : v.WF) :
    (v.pushBack tr x).WF := WF_emplaceBack tr v x h

theorem WF_popBack (v : Vec α) (h : v.WF) (hs : v.size ≠ 0) : v.popBack.WF := by
  obtain ⟨cap, xs, hl, rfl⟩ := h
  rw [mkVec_size] at hs
  rw [popBack_mkVec cap xs (by intro hx; subst hx; simp at hs) hl]
  exact WF_mkVec cap xs.dropLast (by rw [List.length_dropLast]; omega)

theorem WF_emplace (tr : TypeTraits) (v : Vec α) (p : Nat) (x : α) (h : v.WF)
    (hp : p ≤ v.size) : (v.emplace tr p x).1.WF := by
  obtain ⟨cap, xs, hl, rfl⟩ := h
  rw [mkVec_size] at hp
  rw [emplace_mkVec tr cap p xs x hl hp]
  apply WF_mkVec
  simp only [List.length_append, List.length_cons, List.length_take,
    List.length_drop]
  split_ifs <;> omega

theorem WF_insert (tr : TypeTraits) (v : Vec α) (p : Nat) (x : α) (h : v.WF)
    (hp : p ≤ v.size) : (v.insert tr p x).1.WF := WF_emplace tr v p x h hp

theorem WF_erase (v : Vec α) (p : Nat) (h : v.WF) (hp : p < v.size ∨ v.size = 0) :
    (v.erase p).1.WF := by
  rcases hp with hp | hp
  · obtain ⟨cap, xs, hl, rfl⟩ := h
    rw [mkVec_size] at hp
    rw [erase_mkVec cap p xs hp hl]
    apply WF_mkVec
    simp only [List.length_append, List.length_take, List.length_drop]
    omega
  · rw [erase_size_zero v p hp]
    exact h

theorem WF_resize (tr : TypeTraits) (v : Vec α) (x : α) (n : Nat) (h : v.WF) :
    (v.resize tr x n).WF := by
  obtain ⟨cap, xs, hl, rfl⟩ := h
  rw [resize_mkVec tr cap n xs x hl]
  split_ifs with hn
  · exact WF_mkVec cap (xs.take n) (by rw [List.length_take]; omega)
  · apply WF_mkVec
    simp only [List.length_append, List.length_replicate]
    omega

theorem WF_copyAssign (v w : Vec α) (hv : v.WF) (hw : w.WF) :
    (v.copyAssign w).WF := by
  obtain ⟨cap, xs, hx, rfl⟩ := hv
  obtain ⟨cap2, ys, hy, rfl⟩ := hw
  rw [copyAssign_mkVec cap cap2 xs ys hx hy]
  split_ifs with hc
  · exact WF_mkVec ys.length ys (le_refl _)
  · exact WF_mkVec cap ys (by omega)

/-! ### Repeated `PushBack` from empty: the capacity sequence -/

/-- Pushing `k` copies of `x` into an initially empty vector. -/
def iterPush (tr : TypeTraits) (x : α) : Nat → Vec α
  | 0 => Vec.empty α
  | k + 1 => (iterPush tr x k).pushBack tr x

/-- The capacity after `k` pushes from empty, per the growth policy. -/
def capSeq : Nat → Nat
  | 0 => 0
  | k + 1 => if k = capSeq k then max 1 (2 * capSeq k) else capSeq k

theorem le_capSeq : ∀ k, k ≤ capSeq k := by
  intro k
  induction k with
  | zero => simp [capSeq]
  | succ k ih =>
    rw [capSeq]
    split_ifs with hk <;> omega

theorem iterPush_eq (tr : TypeTraits) (x : α) (k : Nat) :
    iterPush tr x k = mkVec (capSeq k) (List.replicate k x) := by
  induction k with
  | zero => rfl
  | succ k ih =>
    rw [iterPush, ih, Vec.pushBack,
      emplaceBack_mkVec tr (capSeq k) (List.replicate k x) x
        (by rw [List.length_replicate]; exact le_capSeq k),
      ← List.replicate_succ' k x, capSeq]
    rw [List.length_replicate]

theorem capSeq_pow2 (k : Nat) (hk : 1 ≤ k) : ∃ j, capSeq k = 2 ^ j := by
  induction k with
  | zero => omega
  | succ k ih =>
    by_cases hk0 : k = 0
    · subst hk0
      exact ⟨0, by simp [capSeq]⟩
    · obtain ⟨j, hj⟩ := ih (by omega)
      rw [capSeq]
      split_ifs with hfull
      · refine ⟨j + 1, ?_⟩
        rw [hj]
        have h1 : 1 ≤ 2 ^ j := Nat.one_le_two_pow
        rw [pow_succ]
        omega
      · exact ⟨j, hj⟩

theorem capSeq_mono (k : Nat) : capSeq k ≤ capSeq (k + 1) := by
  rw [capSeq]
  split_ifs <;> omega

/-! ### Claim theorems -/

/-- C1: For every vector with `Size() == Capacity()`, `EmplaceBack` (and
`PushBack`, which delegates to it) constructs the new element into its final
slot of a freshly allocated doubled-capacity buffer before migrating any
existing element, so that if construction of the new element fails, the
vector's size, capacity, and element values are exactly as before the call
(strong guarantee). -/
theorem emplaceBack_strong_guarantee {α : Type} (tr : TypeTraits) (v : Vec α)
    (x : α) (hWF : v.WF) (hfull : v.size = v.capacity) :
    (v.emplaceBackF tr none).1 = v ∧
    (v.emplaceBackF tr none).1.size = v.size ∧
    (v.emplaceBackF tr none).1.capacity = v.capacity ∧
    (v.emplaceBackF tr none).1.elems = v.elems ∧
    (v.emplaceBackF tr (some x)).1.capacity = max 1 (2 * v.capacity) ∧
    (v.emplaceBackF tr (some x)).1.size = v.size + 1 ∧
    (v.emplaceBackF tr (some x)).1.elems = v.elems ++ [x] ∧
    v.pushBack tr x = (v.emplaceBackF tr (some x)).1 := by
  obtain ⟨cap, xs, hl, rfl⟩ := hWF
  rw [mkVec_size, mkVec_capacity cap xs hl] at hfull
  refine ⟨?_, ?_, ?_, ?_, ?_, ?_, ?_, rfl⟩
  · rw [emplaceBackF_none]
  · rw [emplaceBackF_none]
  · rw [emplaceBackF_none]
  · rw [emplaceBackF_none]
  · rw [emplaceBackF_some_mkVec tr cap xs x hl, if_pos hfull,
      mkVec_capacity cap xs hl,
      mkVec_capacity (max 1 (2 * cap)) (xs ++ [x]) (by simp only [List.length_append, List.length_cons, List.length_nil, List.length_take, List.length_drop]; omega)]
  · rw [emplaceBackF_some_mkVec tr cap xs x hl, mkVec_size, mkVec_size]
    simp
  · rw [emplaceBackF_some_mkVec tr cap xs x hl, if_pos hfull,
      mkVec_elems (max 1 (2 * cap)) (xs ++ [x]) (by simp only [List.length_append, List.length_cons, List.length_nil, List.length_take, List.length_drop]; omega),
      mkVec_elems cap xs hl]

theorem emplaceBack_strong_guarantee_witness :
    (mkVec 2 [10, 20] : Vec Nat).WF ∧
    (mkVec 2 [10, 20] : Vec Nat).size = (mkVec 2 [10, 20] : Vec Nat).capacity ∧
    ((mkVec 2 [10, 20] : Vec Nat).emplaceBackF ⟨true, true⟩ none).1 =
      mkVec 2 [10, 20] ∧
    ((mkVec 2 [10, 20] : Vec Nat).emplaceBackF ⟨true, true⟩ (some 30)).1.elems =
      [10, 20] ++ [30] :=
  have hWF : (mkVec 2 [10, 20] : Vec Nat).WF := ⟨2, [10, 20], by decide, rfl⟩
  have hfull : (mkVec 2 [10, 20] : Vec Nat).size =
      (mkVec 2 [10, 20] : Vec Nat).capacity := by decide
  have h := emplaceBack_strong_guarantee ⟨true, true⟩ (mkVec 2 [10, 20]) 30 hWF
    hfull
  ⟨hWF, hfull, h.1, by
    rw [h.2.2.2.2.2.2.1, mkVec_elems 2 [10, 20] (by decide)]⟩

/-- C2: For every vector, an appending or inserting operation (`PushBack`,
`EmplaceBack`, `Insert`, `Emplace`) invoked when `Size() == Capacity()`
produces a new capacity equal to `max (1, 2 × old capacity)`; consequently the
sequence of capacities observed while pushing repeatedly into an initially
empty vector is 1, 2, 4, 8, ... -/
theorem capacity_growth {α : Type} (tr : TypeTraits) (v : Vec α) (x : α)
    (p : Nat) (hWF : v.WF) (hfull : v.size = v.capacity) (hp : p ≤ v.size) :
    (v.emplaceBack tr x).capacity = max 1 (2 * v.capacity) ∧
    (v.pushBack tr x).capacity = max 1 (2 * v.capacity) ∧
    ((v.emplace tr p x).1).capacity = max 1 (2 * v.capacity) ∧
    ((v.insert tr p x).1).capacity = max 1 (2 * v.capacity) ∧
    (∀ k, 1 ≤ k → ∃ j, (iterPush tr x k).capacity = 2 ^ j) ∧
    (∀ k, (iterPush tr x k).capacity ≤ (iterPush tr x (k + 1)).capacity) := by
  obtain ⟨cap, xs, hl, rfl⟩ := hWF
  rw [mkVec_size, mkVec_capacity cap xs hl] at hfull
  rw [mkVec_size] at hp
  have hcap : ∀ k, (iterPush tr x k).capacity = capSeq k := by
    intro k
    rw [iterPush_eq, mkVec_capacity (capSeq k) (List.replicate k x)
      (by rw [List.length_replicate]; exact le_capSeq k)]
  have hgrow : ((mkVec cap xs).emplaceBack tr x).capacity = max 1 (2 * cap) := by
    rw [emplaceBack_mkVec tr cap xs x hl, if_pos hfull,
      mkVec_capacity (max 1 (2 * cap)) (xs ++ [x]) (by simp only [List.length_append, List.length_cons, List.length_nil, List.length_take, List.length_drop]; omega)]
  have hgrow2 : (((mkVec cap xs).emplace tr p x).1).capacity =
      max 1 (2 * cap) := by
    rw [emplace_mkVec tr cap p xs x hl hp, if_pos hfull,
      mkVec_capacity (max 1 (2 * cap)) (xs.take p ++ x :: xs.drop p)
        (by simp only [List.length_append, List.length_cons, List.length_nil, List.length_take, List.length_drop]; omega)]
  refine ⟨by rw [hgrow, mkVec_capacity cap xs hl],
    by rw [Vec.pushBack, hgrow, mkVec_capacity cap xs hl],
    by rw [hgrow2, mkVec_capacity cap xs hl],
    by rw [Vec.insert, hgrow2, mkVec_capacity cap xs hl], ?_, ?_⟩
  · intro k hk
    rw [hcap]
    exact capSeq_pow2 k hk
  · intro k
    rw [hcap, hcap]
    exact capSeq_mono k

theorem capacity_growth_witness :
    (mkVec 2 [10, 20] : Vec Nat).WF ∧
    (mkVec 2 [10, 20] : Vec Nat).size = (mkVec 2 [10, 20] : Vec Nat).capacity ∧
    (1 : Nat) ≤ (mkVec 2 [10, 20] : Vec Nat).size ∧
    ((mkVec 2 [10, 20] : Vec Nat).emplaceBack ⟨true, true⟩ 30).capacity =
      max 1 (2 * 2) :=
  have hWF : (mkVec 2 [10, 20] : Vec Nat).WF := ⟨2, [10, 20], by decide, rfl⟩
  have hfull : (mkVec 2 [10, 20] : Vec Nat).size =
      (mkVec 2 [10, 20] : Vec Nat).capacity := by decide
  have h := capacity_growth ⟨true, true⟩ (mkVec 2 [10, 20]) 30 1 hWF hfull
    (by decide)
  ⟨hWF, hfull, by decide, by
    rw [h.1, mkVec_capacity 2 [10, 20] (by decide)]⟩

/-- C3: During every buffer migration (`Reserve`, and the growth paths of
`EmplaceBack`/`Emplace`), elements are relocated by move if and only if the
element type's move construction cannot fail (is nothrow) or the type has no
copy capability; otherwise they are duplicated by copy.  In particular,
`EmplaceBack` on a vector with `size == capacity == 2` holding a move-only
element type succeeds, yields capacity 4, and relocates the two prior elements
by move. -/
theorem moveOrCopy_policy {α : Type} (tr : TypeTraits) (src : List (Option α))
    (s n : Nat) (dst : List (Option α)) (d : Nat) (nm : Bool) (a b x : α) :
    ((moveOrCopy tr src s n dst d).1 = MigrateKind.byMove ↔
      (tr.nothrowMoveConstructible = true ∨ tr.copyConstructible = false)) ∧
    ((moveOrCopy tr src s n dst d).1 = MigrateKind.byCopy ↔
      (tr.nothrowMoveConstructible = false ∧ tr.copyConstructible = true)) ∧
    (∀ (src2 dst2 : List (Option α)) (s2 n2 d2 : Nat),
      (moveOrCopy (⟨nm, false⟩ : TypeTraits) src2 s2 n2 dst2 d2).1 =
        MigrateKind.byMove) ∧
    ((mkVec 2 [a, b]).emplaceBack ⟨nm, false⟩ x).capacity = 4 ∧
    ((mkVec 2 [a, b]).emplaceBack ⟨nm, false⟩ x).size = 3 ∧
    ((mkVec 2 [a, b]).emplaceBack ⟨nm, false⟩ x).elems = [a, b, x] := by
  have hl : ([a, b] : List α).length ≤ 2 := by simp
  have hfull : ([a, b] : List α).length = 2 := rfl
  have hE : (mkVec 2 [a, b]).emplaceBack (⟨nm, false⟩ : TypeTraits) x =
      mkVec 4 ([a, b] ++ [x]) := by
    rw [emplaceBack_mkVec ⟨nm, false⟩ 2 [a, b] x hl, if_pos hfull,
      show (max 1 (2 * 2) : Nat) = 4 from by decide]
  refine ⟨?_, ?_, ?_, ?_, ?_, ?_⟩
  · rcases tr with ⟨nmc, cc⟩
    cases nmc <;> cases cc <;> simp [moveOrCopy_fst]
  · rcases tr with ⟨nmc, cc⟩
    cases nmc <;> cases cc <;> simp [moveOrCopy_fst]
  · intro src2 dst2 s2 n2 d2
    rw [moveOrCopy_fst]
    cases nm <;> simp
  · rw [hE, mkVec_capacity 4 ([a, b] ++ [x]) (by simp)]
  · rw [hE, mkVec_size]
    rfl
  · rw [hE, mkVec_elems 4 ([a, b] ++ [x]) (by simp)]
    rfl

theorem moveOrCopy_policy_witness :
    ((moveOrCopy (⟨false, false⟩ : TypeTraits) ([] : List (Option Nat)) 0 0 []
        0).1 = MigrateKind.byMove ↔
      ((false : Bool) = true ∨ (false : Bool) = false)) ∧
    ((mkVec 2 [10, 20] : Vec Nat).emplaceBack ⟨false, false⟩ 30).elems =
      [10, 20, 30] :=
  have h := moveOrCopy_policy (⟨false, false⟩ : TypeTraits)
    ([] : List (Option Nat)) 0 0 [] 0 false 10 20 30
  ⟨h.1, h.2.2.2.2.2⟩

/-- C4: For every vector of size n and every valid position p (0 ≤ p ≤ n),
`Insert` of a value at p yields size n+1 with the new value at position p and
all other elements in their original relative order; `Erase` at p on that
result restores the original size and element sequence, and conversely
`Insert` immediately undoing an `Erase` at the same position reproduces the
original sequence. -/
theorem insert_erase_roundtrip {α : Type} (tr : TypeTraits) (v : Vec α)
    (p : Nat) (x y : α) (hWF : v.WF) (hp : p ≤ v.size) :
    (v.insert tr p x).1.size = v.size + 1 ∧
    ((v.insert tr p x).1.elems)[p]? = some x ∧
    (v.insert tr p x).1.elems = v.elems.take p ++ x :: v.elems.drop p ∧
    ((v.insert tr p x).1.erase p).1.size = v.size ∧
    ((v.insert tr p x).1.erase p).1.elems = v.elems ∧
    (p < v.size → v.elems[p]? = some y →
      ((v.erase p).1.insert tr p y).1.size = v.size ∧
      ((v.erase p).1.insert tr p y).1.elems = v.elems) := by
  obtain ⟨cap, xs, hl, rfl⟩ := hWF
  rw [mkVec_size] at hp
  rw [mkVec_size, mkVec_elems cap xs hl]
  have hEm := emplace_mkVec tr cap p xs x hl hp
  have hys : (xs.take p ++ x :: xs.drop p).length = xs.length + 1 := by
    simp only [List.length_append, List.length_cons, List.length_take,
      List.length_drop]
    omega
  have hyle : (xs.take p ++ x :: xs.drop p).length ≤
      (if xs.length = cap then max 1 (2 * cap) else cap) := by
    rw [hys]
    split_ifs <;> omega
  have hz : (xs.take p ++ x :: xs.drop p).take p ++
      (xs.take p ++ x :: xs.drop p).drop (p + 1) = xs := by
    apply List.ext_getElem?
    intro j
    rw [remove_getElem? _ p (by rw [hys]; omega) j,
      insert_getElem? xs p x hp j, insert_getElem? xs p x hp (j + 1)]
    split_ifs <;> first | rfl | omega | (congr 1; omega)
  refine ⟨?_, ?_, ?_, ?_, ?_, ?_⟩
  · rw [Vec.insert, hEm, mkVec_size, hys]
  · rw [Vec.insert, hEm, mkVec_elems _ _ hyle, insert_getElem? xs p x hp p]
    simp
  · rw [Vec.insert, hEm, mkVec_elems _ _ hyle]
  · rw [Vec.insert, hEm,
      erase_mkVec _ p (xs.take p ++ x :: xs.drop p) (by rw [hys]; omega) hyle,
      mkVec_size, hz]
  · rw [Vec.insert, hEm,
      erase_mkVec _ p (xs.take p ++ x :: xs.drop p) (by rw [hys]; omega) hyle,
      hz, mkVec_elems _ xs (by split_ifs <;> omega)]
  · intro hq hy2
    have hEr := erase_mkVec cap p xs hq hl
    have hzlen : (xs.take p ++ xs.drop (p + 1)).length = xs.length - 1 := by
      simp only [List.length_append, List.length_take, List.length_drop]
      omega
    have hEm2 := emplace_mkVec tr cap p (xs.take p ++ xs.drop (p + 1)) y
      (by omega) (by rw [hzlen]; omega)
    have hw : (xs.take p ++ xs.drop (p + 1)).take p ++
        y :: (xs.take p ++ xs.drop (p + 1)).drop p = xs := by
      apply List.ext_getElem?
      intro j
      rw [insert_getElem? (xs.take p ++ xs.drop (p + 1)) p y
        (by rw [hzlen]; omega) j]
      by_cases h1 : j < p
      · rw [if_pos h1, remove_getElem? xs p hq j, if_pos h1]
      · by_cases h2 : j = p
        · rw [if_neg h1, if_pos h2, h2, hy2]
        · rw [if_neg h1, if_neg h2, remove_getElem? xs p hq (j - 1),
            if_neg (by omega)]
          congr 1
          omega
    constructor
    · rw [Vec.insert, hEr, hEm2, hw, mkVec_size]
    · rw [Vec.insert, hEr, hEm2, hw,
        mkVec_elems _ xs (by rw [hzlen]; split_ifs <;> omega)]

theorem insert_erase_roundtrip_witness :
    (mkVec 8 [10, 20, 30, 40, 50] : Vec Nat).WF ∧
    (2 : Nat) ≤ (mkVec 8 [10, 20, 30, 40, 50] : Vec Nat).size ∧
    ((mkVec 8 [10, 20, 30, 40, 50] : Vec Nat).insert ⟨true, true⟩ 2 99).1.elems =
      ([10, 20, 30, 40, 50] : List Nat).take 2 ++
        99 :: ([10, 20, 30, 40, 50] : List Nat).drop 2 ∧
    (((mkVec 8 [10, 20, 30, 40, 50] : Vec Nat).insert ⟨true, true⟩ 2
        99).1.erase 2).1.elems = [10, 20, 30, 40, 50] :=
  have hWF : (mkVec 8 [10, 20, 30, 40, 50] : Vec Nat).WF :=
    ⟨8, [10, 20, 30, 40, 50], by decide, rfl⟩
  have h := insert_erase_roundtrip ⟨true, true⟩
    (mkVec 8 [10, 20, 30, 40, 50]) 2 99 30 hWF (by decide)
  ⟨hWF, by decide, by
    rw [h.2.2.1, mkVec_elems 8 [10, 20, 30, 40, 50] (by decide)], by
    rw [h.2.2.2.2.1, mkVec_elems 8 [10, 20, 30, 40, 50] (by decide)]⟩

/-- C5: For every pair of vectors where the source's `Size()` does not exceed
the target's `Capacity()`, copy assignment never reallocates: the target's
capacity is unchanged, its size becomes the source's size, the overlapping
prefix is overwritten element-wise with the source's values, the source's
extra elements are copy-constructed, and the target's excess trailing
elements are destroyed (their slots return to uninitialized).  Concretely,
copy-assigning a 3-element array onto a 10-capacity, 5-element array yields
size 3, capacity 10, elements 0–2 equal to the source's values, and elements
3 and 4 destroyed. -/
theorem copyAssign_no_realloc {α : Type} (v w : Vec α) (hv : v.WF) (hw : w.WF)
    (hfit : w.size ≤ v.capacity) :
    (v.copyAssign w).capacity = v.capacity ∧
    (v.copyAssign w).size = w.size ∧
    (v.copyAssign w).elems = w.elems ∧
    (∀ i, w.size ≤ i → i < v.capacity → ((v.copyAssign w).data)[i]? = some none) ∧
    (∀ a₀ a₁ a₂ a₃ a₄ b₀ b₁ b₂ : α,
      ((mkVec 10 [a₀, a₁, a₂, a₃, a₄]).copyAssign
        (mkVec 3 [b₀, b₁, b₂])).capacity = 10 ∧
      ((mkVec 10 [a₀, a₁, a₂, a₃, a₄]).copyAssign
        (mkVec 3 [b₀, b₁, b₂])).size = 3 ∧
      ((mkVec 10 [a₀, a₁, a₂, a₃, a₄]).copyAssign
        (mkVec 3 [b₀, b₁, b₂])).elems = [b₀, b₁, b₂] ∧
      (((mkVec 10 [a₀, a₁, a₂, a₃, a₄]).copyAssign
        (mkVec 3 [b₀, b₁, b₂])).data)[3]? = some none ∧
      (((mkVec 10 [a₀, a₁, a₂, a₃, a₄]).copyAssign
        (mkVec 3 [b₀, b₁, b₂])).data)[4]? = some none) := by
  have main : ∀ (cap cap2 : Nat) (xs ys : List α), xs.length ≤ cap →
      ys.length ≤ cap2 → ys.length ≤ cap →
      ((mkVec cap xs).copyAssign (mkVec cap2 ys)).capacity = cap ∧
      ((mkVec cap xs).copyAssign (mkVec cap2 ys)).size = ys.length ∧
      ((mkVec cap xs).copyAssign (mkVec cap2 ys)).elems = ys ∧
      (∀ i, ys.length ≤ i → i < cap →
        (((mkVec cap xs).copyAssign (mkVec cap2 ys)).data)[i]? = some none) := by
    intro cap cap2 xs ys hx hy hfit2
    rw [copyAssign_mkVec cap cap2 xs ys hx hy, if_neg (by omega)]
    refine ⟨mkVec_capacity cap ys (by omega), mkVec_size cap ys,
      mkVec_elems cap ys (by omega), ?_⟩
    intro i h1 h2
    rw [show (mkVec cap ys).data = buf cap ys from rfl,
      buf_getElem? cap ys (by omega) i, if_neg (by omega), if_pos (by omega)]
  obtain ⟨cap, xs, hx, rfl⟩ := hv
  obtain ⟨cap2, ys, hy, rfl⟩ := hw
  rw [mkVec_size, mkVec_capacity cap xs hx] at hfit
  obtain ⟨m1, m2, m3, m4⟩ := main cap cap2 xs ys hx hy hfit
  refine ⟨?_, ?_, ?_, ?_, ?_⟩
  · rw [m1, mkVec_capacity cap xs hx]
  · rw [m2, mkVec_size]
  · rw [m3, mkVec_elems cap2 ys hy]
  · intro i h1 h2
    rw [mkVec_size] at h1
    rw [mkVec_capacity cap xs hx] at h2
    exact m4 i h1 h2
  · intro a₀ a₁ a₂ a₃ a₄ b₀ b₁ b₂
    obtain ⟨c1, c2, c3, c4⟩ := main 10 3 [a₀, a₁, a₂, a₃, a₄] [b₀, b₁, b₂]
      (by simp) (by simp) (by simp)
    exact ⟨c1, c2, c3, c4 3 (by simp) (by omega), c4 4 (by simp) (by omega)⟩

theorem copyAssign_no_realloc_witness :
    (mkVec 10 [1, 2, 3, 4, 5] : Vec Nat).WF ∧
    (mkVec 3 [7, 8, 9] : Vec Nat).WF ∧
    (mkVec 3 [7, 8, 9] : Vec Nat).size ≤
      (mkVec 10 [1, 2, 3, 4, 5] : Vec Nat).capacity ∧
    ((mkVec 10 [1, 2, 3, 4, 5] : Vec Nat).copyAssign
      (mkVec 3 [7, 8, 9])).elems = (mkVec 3 [7, 8, 9] : Vec Nat).elems :=
  have h1 : (mkVec 10 [1, 2, 3, 4, 5] : Vec Nat).WF :=
    ⟨10, [1, 2, 3, 4, 5], by decide, rfl⟩
  have h2 : (mkVec 3 [7, 8, 9] : Vec Nat).WF := ⟨3, [7, 8, 9], by decide, rfl⟩
  have h := copyAssign_no_realloc (mkVec 10 [1, 2, 3, 4, 5])
    (mkVec 3 [7, 8, 9]) h1 h2 (by decide)
  ⟨h1, h2, by decide, h.2.2.1⟩

/-- C6: For every vector and every n, `Reserve(n)` with `n ≤ Capacity()` is a
no-op leaving capacity, size, and all element values unchanged; `Reserve(n)`
with `n > Capacity()` yields capacity exactly n while preserving the size and
the values of all live elements in order. -/
theorem reserve_frame {α : Type} (tr : TypeTraits) (v : Vec α) (n : Nat)
    (hWF : v.WF) :
    (n ≤ v.capacity → v.reserve tr n = v) ∧
    (v.capacity < n →
      (v.reserve tr n).capacity = n ∧
      (v.reserve tr n).size = v.size ∧
      (v.reserve tr n).elems = v.elems) := by
  obtain ⟨cap, xs, hl, rfl⟩ := hWF
  rw [mkVec_capacity cap xs hl, reserve_mkVec tr cap n xs hl]
  constructor
  · intro hn
    rw [if_pos hn]
  · intro hn
    rw [if_neg (by omega), mkVec_capacity n xs (by omega), mkVec_size,
      mkVec_size, mkVec_elems n xs (by omega), mkVec_elems cap xs hl]
    exact ⟨rfl, rfl, rfl⟩

theorem reserve_frame_witness :
    (mkVec 4 [10, 20] : Vec Nat).WF ∧
    ((3 : Nat) ≤ (mkVec 4 [10, 20] : Vec Nat).capacity →
      (mkVec 4 [10, 20] : Vec Nat).reserve ⟨true, true⟩ 3 = mkVec 4 [10, 20]) ∧
    ((mkVec 4 [10, 20] : Vec Nat).capacity < 9 →
      ((mkVec 4 [10, 20] : Vec Nat).reserve ⟨true, true⟩ 9).capacity = 9 ∧
      ((mkVec 4 [10, 20] : Vec Nat).reserve ⟨true, true⟩ 9).size =
        (mkVec 4 [10, 20] : Vec Nat).size ∧
      ((mkVec 4 [10, 20] : Vec Nat).reserve ⟨true, true⟩ 9).elems =
        (mkVec 4 [10, 20] : Vec Nat).elems) :=
  have hWF : (mkVec 4 [10, 20] : Vec Nat).WF := ⟨4, [10, 20], by decide, rfl⟩
  ⟨hWF, (reserve_frame ⟨true, true⟩ (mkVec 4 [10, 20]) 3 hWF).1,
    (reserve_frame ⟨true, true⟩ (mkVec 4 [10, 20]) 9 hWF).2⟩

/-- C7: `Erase` on an empty vector is a no-op that returns the position it was
given; on a non-empty vector with a valid position p < Size(), `Erase` shifts
the elements after p one slot left by move-assignment, destroys the
now-duplicate trailing element, and decreases the size by exactly one. -/
theorem erase_behaviour {α : Type} (v : Vec α) (p : Nat) (hWF : v.WF) :
    (v.size = 0 → v.erase p = (v, p)) ∧
    (p < v.size →
      (v.erase p).1.size = v.size - 1 ∧
      (v.erase p).2 = p ∧
      (v.erase p).1.elems = v.elems.take p ++ v.elems.drop (p + 1) ∧
      (v.erase p).1.capacity = v.capacity ∧
      ((v.erase p).1.data)[v.size - 1]? = some none) := by
  obtain ⟨cap, xs, hl, rfl⟩ := hWF
  rw [mkVec_size, mkVec_capacity cap xs hl, mkVec_elems cap xs hl]
  refine ⟨fun h0 => erase_size_zero (mkVec cap xs) p (by rw [mkVec_size]; exact h0), ?_⟩
  intro hq
  have hzlen : (xs.take p ++ xs.drop (p + 1)).length = xs.length - 1 := by
    simp only [List.length_append, List.length_take, List.length_drop]
    omega
  rw [erase_mkVec cap p xs hq hl, mkVec_size, hzlen,
    mkVec_elems cap (xs.take p ++ xs.drop (p + 1)) (by omega),
    mkVec_capacity cap (xs.take p ++ xs.drop (p + 1)) (by omega)]
  refine ⟨rfl, rfl, rfl, rfl, ?_⟩
  rw [show (mkVec cap (xs.take p ++ xs.drop (p + 1))).data =
      buf cap (xs.take p ++ xs.drop (p + 1)) from rfl,
    buf_getElem? cap (xs.take p ++ xs.drop (p + 1)) (by omega) (xs.length - 1),
    if_neg (by rw [hzlen]; omega), if_pos (by omega)]

theorem erase_behaviour_witness :
    (mkVec 8 [10, 20, 30, 40, 50] : Vec Nat).WF ∧
    ((2 : Nat) < (mkVec 8 [10, 20, 30, 40, 50] : Vec Nat).size →
      ((mkVec 8 [10, 20, 30, 40, 50] : Vec Nat).erase 2).1.size =
        (mkVec 8 [10, 20, 30, 40, 50] : Vec Nat).size - 1) ∧
    (Vec.empty Nat).WF ∧
    ((Vec.empty Nat).size = 0 → (Vec.empty Nat).erase 0 = (Vec.empty Nat, 0)) :=
  have h1 : (mkVec 8 [10, 20, 30, 40, 50] : Vec Nat).WF :=
    ⟨8, [10, 20, 30, 40, 50], by decide, rfl⟩
  have h2 : (Vec.empty Nat).WF := ⟨0, [], by decide, rfl⟩
  ⟨h1, fun hq => ((erase_behaviour (mkVec 8 [10, 20, 30, 40, 50]) 2 h1).2 hq).1,
    h2, (erase_behaviour (Vec.empty Nat) 0 h2).1⟩

/-- C8: Every public operation of the vector preserves the invariant that the
count of live elements never exceeds the buffer's capacity: for every
reachable vector state, `0 ≤ Size() ≤ Capacity()`, with exactly the positions
`[0, Size())` holding constructed elements. -/
theorem invariant_preserved :
    (∀ (α : Type) (v : Vec α), v.WF →
      v.size ≤ v.capacity ∧
      (∀ i, i < v.size → ∃ y, v.data[i]? = some (some y)) ∧
      (∀ i, v.size ≤ i → i < v.capacity → v.data[i]? = some none)) ∧
    (∀ (α : Type), (Vec.empty α).WF) ∧
    (∀ (α : Type) (x : α) (n : Nat), (Vec.sized x n).WF) ∧
    (∀ (α : Type) (v : Vec α), v.WF → (Vec.copyCtor v).WF) ∧
    (∀ (α : Type) (v : Vec α), v.WF →
      (Vec.moveCtor v).1.WF ∧ (Vec.moveCtor v).2.WF) ∧
    (∀ (α : Type) (v w : Vec α), v.WF → w.WF →
      (v.swapOp w).1.WF ∧ (v.swapOp w).2.WF) ∧
    (∀ (α : Type) (v w : Vec α), v.WF → w.WF →
      (v.moveAssign w).1.WF ∧ (v.moveAssign w).2.WF) ∧
    (∀ (α : Type) (tr : TypeTraits) (v : Vec α) (n : Nat), v.WF →
      (v.reserve tr n).WF) ∧
    (∀ (α : Type) (tr : TypeTraits) (v : Vec α) (x : α), v.WF →
      (v.pushBack tr x).WF) ∧
    (∀ (α : Type) (tr : TypeTraits) (v : Vec α) (x : α), v.WF →
      (v.emplaceBack tr x).WF) ∧
    (∀ (α : Type) (tr : TypeTraits) (v : Vec α) (c : Option α), v.WF →
      (v.emplaceBackF tr c).1.WF) ∧
    (∀ (α : Type) (v : Vec α), v.WF → v.size ≠ 0 → v.popBack.WF) ∧
    (∀ (α : Type) (tr : TypeTraits) (v : Vec α) (p : Nat) (x : α), v.WF →
      p ≤ v.size → (v.emplace tr p x).1.WF) ∧
    (∀ (α : Type) (tr : TypeTraits) (v : Vec α) (p : Nat) (x : α), v.WF →
      p ≤ v.size → (v.insert tr p x).1.WF) ∧
    (∀ (α : Type) (v : Vec α) (p : Nat), v.WF → (p < v.size ∨ v.size = 0) →
      (v.erase p).1.WF) ∧
    (∀ (α : Type) (tr : TypeTraits) (v : Vec α) (x : α) (n : Nat), v.WF →
      (v.resize tr x n).WF) ∧
    (∀ (α : Type) (v w : Vec α), v.WF → w.WF → (v.copyAssign w).WF) := by
  refine ⟨?_, fun α => WF_empty, fun α => WF_sized, fun α => WF_copyCtor,
    ?_, ?_, ?_,
    fun α => WF_reserve, fun α => WF_pushBack, fun α => WF_emplaceBack,
    fun α => WF_emplaceBackF, fun α => WF_popBack, fun α => WF_emplace,
    fun α => WF_insert, fun α => WF_erase, fun α => WF_resize,
    fun α => WF_copyAssign⟩
  · intro α v h
    obtain ⟨cap, xs, hl, rfl⟩ := h
    refine ⟨by rw [mkVec_size, mkVec_capacity cap xs hl]; exact hl, ?_, ?_⟩
    · intro i hi
      rw [mkVec_size] at hi
      obtain ⟨y, hy⟩ : ∃ y, xs[i]? = some y :=
        ⟨_, List.getElem?_eq_getElem (by omega)⟩
      refine ⟨y, ?_⟩
      rw [show (mkVec cap xs).data = buf cap xs from rfl,
        buf_getElem? cap xs hl i, if_pos (by omega), hy]
      rfl
    · intro i h1 h2
      rw [mkVec_size] at h1
      rw [mkVec_capacity cap xs hl] at h2
      rw [show (mkVec cap xs).data = buf cap xs from rfl,
        buf_getElem? cap xs hl i, if_neg (by omega), if_pos (by omega)]
  · intro α v h
    exact ⟨h, WF_empty⟩
  · intro α v w hv hw
    exact ⟨hw, hv⟩
  · intro α v w hv hw
    exact ⟨hw, hv⟩

theorem invariant_preserved_witness :
    (mkVec 2 [10, 20] : Vec Nat).WF ∧
    ((mkVec 2 [10, 20] : Vec Nat).pushBack ⟨true, true⟩ 30).WF ∧
    (mkVec 2 [10, 20] : Vec Nat).size ≤ (mkVec 2 [10, 20] : Vec Nat).capacity :=
  have hWF : (mkVec 2 [10, 20] : Vec Nat).WF := ⟨2, [10, 20], by decide, rfl⟩
  ⟨hWF, invariant_preserved.2.2.2.2.2.2.2.2.1 Nat ⟨true, true⟩
      (mkVec 2 [10, 20]) 30 hWF,
    (invariant_preserved.1 Nat (mkVec 2 [10, 20]) hWF).1⟩

/-- C9: `Resize(n)` with `n < Size()` destroys the excess elements
`[n, Size())` but leaves `Capacity()` unchanged: no vector operation other
than `Swap` and the swap-based assignments ever decreases capacity, and in
particular resizing down never releases or shrinks the owned buffer. -/
theorem resize_down_capacity_monotone {α : Type} (tr : TypeTraits)
    (v w : Vec α) (x : α) (n p m : Nat) (hWF : v.WF) (hw : w.WF) :
    (n < v.size →
      (v.resize tr x n).capacity = v.capacity ∧
      (v.resize tr x n).size = n ∧
      (v.resize tr x n).elems = v.elems.take n ∧
      (∀ i, n ≤ i → i < v.capacity → ((v.resize tr x n).data)[i]? = some none)) ∧
    v.capacity ≤ (v.reserve tr m).capacity ∧
    v.capacity ≤ (v.resize tr x m).capacity ∧
    v.capacity ≤ (v.pushBack tr x).capacity ∧
    v.capacity ≤ (v.emplaceBack tr x).capacity ∧
    (p ≤ v.size → v.capacity ≤ ((v.emplace tr p x).1).capacity) ∧
    (p ≤ v.size → v.capacity ≤ ((v.insert tr p x).1).capacity) ∧
    ((p < v.size ∨ v.size = 0) → v.capacity ≤ ((v.erase p).1).capacity) ∧
    (v.size ≠ 0 → v.capacity ≤ v.popBack.capacity) ∧
    v.capacity ≤ (v.copyAssign w).capacity := by
  obtain ⟨cap, xs, hl, rfl⟩ := hWF
  rw [mkVec_size, mkVec_capacity cap xs hl, mkVec_elems cap xs hl]
  have hgrow : ∀ xs2 : List α, xs2.length ≤ cap →
      cap ≤ (if xs2.length = cap then max 1 (2 * cap) else cap) := by
    intro xs2 h2
    split_ifs <;> omega
  refine ⟨?_, ?_, ?_, ?_, ?_, ?_, ?_, ?_, ?_, ?_⟩
  · intro hn
    rw [resize_mkVec tr cap n xs x hl, if_pos (by omega),
      mkVec_capacity cap (xs.take n) (by rw [List.length_take]; omega),
      mkVec_size, List.length_take,
      mkVec_elems cap (xs.take n) (by rw [List.length_take]; omega)]
    refine ⟨rfl, by omega, rfl, ?_⟩
    intro i h1 h2
    rw [show (mkVec cap (xs.take n)).data = buf cap (xs.take n) from rfl,
      buf_getElem? cap (xs.take n) (by rw [List.length_take]; omega) i,
      if_neg (by rw [List.length_take]; omega), if_pos (by omega)]
  · rw [reserve_mkVec tr cap m xs hl]
    split_ifs with hm
    · rw [mkVec_capacity cap xs hl]
    · rw [mkVec_capacity m xs (by omega)]
      omega
  · rw [resize_mkVec tr cap m xs x hl]
    split_ifs with hm
    · rw [mkVec_capacity cap (xs.take m) (by rw [List.length_take]; omega)]
    · rw [mkVec_capacity (max cap m) (xs ++ List.replicate (m - xs.length) x)
        (by simp only [List.length_append, List.length_replicate]; omega)]
      omega
  · have hside : (xs ++ [x]).length ≤
        (if xs.length = cap then max 1 (2 * cap) else cap) := by
      simp only [List.length_append, List.length_cons, List.length_nil]
      split_ifs <;> omega
    rw [Vec.pushBack, emplaceBack_mkVec tr cap xs x hl, mkVec_capacity _ _ hside]
    exact hgrow xs hl
  · have hside : (xs ++ [x]).length ≤
        (if xs.length = cap then max 1 (2 * cap) else cap) := by
      simp only [List.length_append, List.length_cons, List.length_nil]
      split_ifs <;> omega
    rw [emplaceBack_mkVec tr cap xs x hl, mkVec_capacity _ _ hside]
    exact hgrow xs hl
  · intro hp
    have hside : (xs.take p ++ x :: xs.drop p).length ≤
        (if xs.length = cap then max 1 (2 * cap) else cap) := by
      simp only [List.length_append, List.length_cons, List.length_take,
        List.length_drop]
      split_ifs <;> omega
    rw [emplace_mkVec tr cap p xs x hl hp, mkVec_capacity _ _ hside]
    exact hgrow xs hl
  · intro hp
    have hside : (xs.take p ++ x :: xs.drop p).length ≤
        (if xs.length = cap then max 1 (2 * cap) else cap) := by
      simp only [List.length_append, List.length_cons, List.length_take,
        List.length_drop]
      split_ifs <;> omega
    rw [Vec.insert, emplace_mkVec tr cap p xs x hl hp, mkVec_capacity _ _ hside]
    exact hgrow xs hl
  · intro hp
    rcases hp with hp | hp
    · rw [erase_mkVec cap p xs hp hl,
        mkVec_capacity cap _ (by simp only [List.length_append,
          List.length_take, List.length_drop]; omega)]
    · rw [erase_size_zero (mkVec cap xs) p (by rw [mkVec_size]; exact hp),
        mkVec_capacity cap xs hl]
  · intro hs
    rw [popBack_mkVec cap xs (by intro hx; subst hx; simp at hs) hl,
      mkVec_capacity cap xs.dropLast (by rw [List.length_dropLast]; omega)]
  · obtain ⟨cap2, ys, hy, rfl⟩ := hw
    rw [copyAssign_mkVec cap cap2 xs ys hl hy]
    split_ifs with hc
    · rw [mkVec_capacity ys.length ys (le_refl _)]
      omega
    · rw [mkVec_capacity cap ys (by omega)]

theorem resize_down_capacity_monotone_witness :
    (mkVec 8 [10, 20, 30, 40, 50] : Vec Nat).WF ∧
    (mkVec 3 [7, 8, 9] : Vec Nat).WF ∧
    ((2 : Nat) < (mkVec 8 [10, 20, 30, 40, 50] : Vec Nat).size →
      ((mkVec 8 [10, 20, 30, 40, 50] : Vec Nat).resize ⟨true, true⟩ 0
        2).capacity = (mkVec 8 [10, 20, 30, 40, 50] : Vec Nat).capacity ∧
      ((mkVec 8 [10, 20, 30, 40, 50] : Vec Nat).resize ⟨true, true⟩ 0
        2).size = 2 ∧
      ((mkVec 8 [10, 20, 30, 40, 50] : Vec Nat).resize ⟨true, true⟩ 0
        2).elems = (mkVec 8 [10, 20, 30, 40, 50] : Vec Nat).elems.take 2 ∧
      (∀ i, 2 ≤ i → i < (mkVec 8 [10, 20, 30, 40, 50] : Vec Nat).capacity →
        (((mkVec 8 [10, 20, 30, 40, 50] : Vec Nat).resize ⟨true, true⟩ 0
          2).data)[i]? = some none)) :=
  have h1 : (mkVec 8 [10, 20, 30, 40, 50] : Vec Nat).WF :=
    ⟨8, [10, 20, 30, 40, 50], by decide, rfl⟩
  have h2 : (mkVec 3 [7, 8, 9] : Vec Nat).WF := ⟨3, [7, 8, 9], by decide, rfl⟩
  ⟨h1, h2, (resize_down_capacity_monotone ⟨true, true⟩
    (mkVec 8 [10, 20, 30, 40, 50]) (mkVec 3 [7, 8, 9]) 0 2 0 0 h1 h2).1⟩

/-- C10: Copy-assigning a vector to itself leaves it unchanged: for every
vector v, after `v = v`, its size, capacity, and every element value equal
what they were before the assignment, even though the implementation performs
no self-assignment check. -/
theorem self_assign_identity {α : Type} (v : Vec α) (hWF : v.WF) :
    v.copyAssign v = v ∧
    (v.copyAssign v).size = v.size ∧
    (v.copyAssign v).capacity = v.capacity ∧
    (v.copyAssign v).elems = v.elems := by
  obtain ⟨cap, xs, hl, rfl⟩ := hWF
  have h : (mkVec cap xs).copyAssign (mkVec cap xs) = mkVec cap xs := by
    rw [copyAssign_mkVec cap cap xs xs hl hl, if_neg (by omega)]
  exact ⟨h, by rw [h], by rw [h], by rw [h]⟩

theorem self_assign_identity_witness :
    (mkVec 8 [10, 20, 30, 40, 50] : Vec Nat).WF ∧
    (mkVec 8 [10, 20, 30, 40, 50] : Vec Nat).copyAssign
      (mkVec 8 [10, 20, 30, 40, 50]) = mkVec 8 [10, 20, 30, 40, 50] :=
  have hWF : (mkVec 8 [10, 20, 30, 40, 50] : Vec Nat).WF :=
    ⟨8, [10, 20, 30, 40, 50], by decide, rfl⟩
  ⟨hWF, (self_assign_identity (mkVec 8 [10, 20, 30, 40, 50]) hWF).1⟩

end AdvVector
